import Mathlib

/-!
Verification of the service-worker configuration generator
(`config/src/generator.mjs`).

The generator consumes a configuration document plus a snapshot of the
deployed file tree and deterministically produces the control manifest.

Embedding conventions:
* JS strings are modelled as Lean `String` (a packed list of characters);
  the JS string methods used by the source (`startsWith`, `endsWith`,
  `substr`, `indexOf(...) === -1`) are embedded character-wise by the
  `str...` helpers below.
* The imported collaborators that are not part of these sources
  (`globToRegex` from `./glob`, `parseDurationToMs` from `./duration`,
  and the `RegExp.test` evaluation backing glob matching) are kept as
  explicit function parameters, so every theorem quantifies over them.
* The asynchronous filesystem collaborator (`fs.list`, `fs.hash`) is a
  record `Fs`; `Promise` failure is outside the model, `Except` models
  the `throw` in `processAssetGroups`.
* `Date.now()` is passed in as the explicit `now` argument.
-/

/-- JS `s.startsWith(p)`: `p` is a character-level prefix of `s`. -/
def strStartsWith (s p : String) : Bool :=
  p.data.isPrefixOf s.data

/-- JS `s.endsWith(p)`: `p` is a character-level suffix of `s`. -/
def strEndsWith (s p : String) : Bool :=
  p.data.isSuffixOf s.data

/-- JS `s.substr(n)` / dropping `n` leading characters. -/
def strDrop (s : String) (n : Nat) : String :=
  String.mk (s.data.drop n)

/-- JS `s.indexOf(sub) !== -1`: `sub` occurs as a contiguous substring of `s`. -/
def strContains (s sub : String) : Bool :=
  s.data.tails.any (fun t => sub.data.isPrefixOf t)

/-- Lexicographic comparison of character lists: the order in which the
default JS `Array.prototype.sort()` comparator puts strings. -/
def charListLe : List Char → List Char → Bool
  | [], _ => true
  | _ :: _, [] => false
  | a :: as, b :: bs => if a = b then charListLe as bs else decide (a < b)

/-- The default JS string comparator, character-wise. -/
def strLeB (a b : String) : Bool := charListLe a.data b.data

/-- JS `Array.prototype.sort()` on an array of strings: sorts
lexicographically (by character order). -/
def sortStrings (l : List String) : List String :=
  l.insertionSort (fun a b => strLeB a b = true)

/-- `joinUrls(a, b)` from `generator.mjs`. -/
def joinUrls (a b : String) : String :=
  if strEndsWith a "/" && strStartsWith b "/" then
    a ++ strDrop b 1
  else if !strEndsWith a "/" && !strStartsWith b "/" then
    a ++ "/" ++ b
  else
    a ++ b

/-- A compiled pattern as produced by `globListToMatcher`: the `positive`
tag plus the compiled, anchored regular expression, abstracted to its
test function on candidate strings. -/
structure CompiledPattern where
  positive : Bool
  test : String → Bool

/-- `matches(file, patterns)` from `generator.mjs`: reduce (left fold)
over the pattern list starting from `false`. -/
def matchesList (file : String) (patterns : List CompiledPattern) : Bool :=
  patterns.foldl
    (fun isMatch pattern =>
      if pattern.positive then
        isMatch || pattern.test file
      else
        isMatch && !pattern.test file)
    false

/-- `globListToMatcher(globs)` from `generator.mjs`, parametrised by
`regexTest glob candidate`, the evaluation of the anchored regular
expression `new RegExp('^' + globToRegex(glob) + '$')` on `candidate`. -/
def globListToMatcher (regexTest : String → String → Bool) (globs : List String) :
    String → Bool :=
  let patterns := globs.map (fun pattern =>
    if strStartsWith pattern "!" then
      { positive := false, test := regexTest (strDrop pattern 1) : CompiledPattern }
    else
      { positive := true, test := regexTest pattern : CompiledPattern })
  fun file => matchesList file patterns

/-- The `baseHref.replace(/^\.(?=\/)/, '')` step of `urlToRegex`: remove a
leading dot that is immediately followed by a slash. -/
def stripLeadingDot (baseHref : String) : String :=
  if strStartsWith baseHref "./" then strDrop baseHref 1 else baseHref

/-- The string that `urlToRegex(url, baseHref, _)` passes to `globToRegex`:
a URL that is not absolute (does not start with a slash and contains no
scheme separator) is first joined with the dot-stripped base. -/
def urlToRegexInput (url baseHref : String) : String :=
  if !strStartsWith url "/" && !strContains url "://" then
    joinUrls (stripLeadingDot baseHref) url
  else
    url

/-- `urlToRegex(url, baseHref, literalQuestionMark)` from `generator.mjs`,
parametrised by the glob compiler `globToRegex`. -/
def urlToRegex (globToRegex : String → Bool → String)
    (url baseHref : String) (literalQuestionMark : Bool) : String :=
  globToRegex (urlToRegexInput url baseHref) literalQuestionMark

/-- `DEFAULT_NAVIGATION_URLS` from `generator.mjs`. -/
def DEFAULT_NAVIGATION_URLS : List String :=
  ["/**", "!/**/*.*", "!/**/*__*", "!/**/*__*/**"]

/-- One entry of the processed `navigationUrls` list. -/
structure NavigationUrl where
  positive : Bool
  regex : String
  deriving DecidableEq, Repr

/-- `processNavigationUrls(baseHref, urls = DEFAULT_NAVIGATION_URLS)` from
`generator.mjs`; `urls = none` models a caller that passes no list. -/
def processNavigationUrls (globToRegex : String → Bool → String)
    (baseHref : String) (urls : Option (List String) := none) : List NavigationUrl :=
  (urls.getD DEFAULT_NAVIGATION_URLS).map (fun url =>
    let positive := !strStartsWith url "!"
    let url := if positive then url else strDrop url 1
    { positive, regex := "^" ++ urlToRegex globToRegex url baseHref false ++ "$" })

/-- `CacheQueryOptions` restricted to the caller-settable field
(`Pick<CacheQueryOptions, 'ignoreSearch'>`). -/
structure CacheQueryOptionsIn where
  ignoreSearch : Option Bool
  deriving DecidableEq, Repr

/-- The processed cache-query options: `ignoreVary` is always set. -/
structure CacheQueryOptions where
  ignoreVary : Bool
  ignoreSearch : Option Bool
  deriving DecidableEq, Repr

/-- `buildCacheQueryOptions(inOptions)` from `generator.mjs`:
`ignoreVary: true` plus the spread of the declared overrides. -/
def buildCacheQueryOptions (inOptions : Option CacheQueryOptionsIn) : CacheQueryOptions :=
  { ignoreVary := true
    ignoreSearch := match inOptions with
      | some o => o.ignoreSearch
      | none => none }

/-- One asset group of the input configuration. `versionedFiles` records
whether the retired option is present (truthy) on the resource spec. -/
structure AssetGroupConfig where
  name : String
  installMode : Option String
  updateMode : Option String
  files : Option (List String)
  urls : Option (List String)
  versionedFiles : Bool
  cacheQueryOptions : Option CacheQueryOptionsIn
  deriving DecidableEq, Repr

/-- The `cacheConfig` of a data group. -/
structure CacheConfig where
  strategy : Option String
  maxSize : Option Nat
  maxAge : String
  timeout : Option String
  deriving DecidableEq, Repr

/-- One data group of the input configuration. -/
structure DataGroupConfig where
  name : String
  urls : List String
  cacheConfig : CacheConfig
  version : Option Nat
  cacheQueryOptions : Option CacheQueryOptionsIn
  deriving DecidableEq, Repr

/-- The input configuration document. -/
structure Config where
  index : String
  appData : Option String
  assetGroups : Option (List AssetGroupConfig)
  dataGroups : Option (List DataGroupConfig)
  navigationUrls : Option (List String)
  navigationRequestStrategy : Option String
  deriving DecidableEq, Repr

/-- The filesystem collaborator: `list` is the file list returned by
`fs.list('/')`, `hash` the per-path content hash of `fs.hash`. -/
structure Fs where
  list : List String
  hash : String → String

/-- The `Generator` class state: the filesystem and the base href. -/
structure Generator where
  fs : Fs
  baseHref : String

/-- JS truthy-or for optional strings: `a || b` (an absent or empty
string falls through to `b`). -/
def orTruthy (a : Option String) (b : String) : String :=
  match a with
  | some s => if s.data.isEmpty then b else s
  | none => b

/-- The configuration error thrown for the retired `versionedFiles`
option (quote marks of the original message are elided). -/
def versionedFilesMessage (name : String) : String :=
  "Asset-group " ++ name ++ " in ngsw-config.json uses the versionedFiles option, " ++
    "which is no longer supported. Use files instead."

/-- The first loop of `processAssetGroups`: walk the asset groups in
config order, threading the global `seenMap` (here an explicit list),
and record for each group its sorted list of matched, not-yet-seen
files. Throwing is modelled by `Except.error`. -/
def computeFilesPerGroup (regexTest : String → String → Bool) (allFiles : List String) :
    List AssetGroupConfig → List String →
      Except String (List (AssetGroupConfig × List String))
  | [], _ => .ok []
  | group :: rest, seen =>
    if group.versionedFiles then
      .error (versionedFilesMessage group.name)
    else
      let fileMatcher := globListToMatcher regexTest (group.files.getD [])
      let matchedFiles :=
        sortStrings ((allFiles.filter fileMatcher).filter (fun file => !seen.contains file))
      match computeFilesPerGroup regexTest allFiles rest (seen ++ matchedFiles) with
      | .ok tail => .ok ((group, matchedFiles) :: tail)
      | .error e => .error e

/-- JS object property assignment `table[key] = value`: overwrite in
place if the key is present, append otherwise. -/
def insertHash (table : List (String × String)) (key value : String) :
    List (String × String) :=
  if table.any (fun kv => kv.1 = key) then
    table.map (fun kv => if kv.1 = key then (key, value) else kv)
  else
    table ++ [(key, value)]

/-- One emitted asset group of the manifest. -/
structure AssetGroup where
  name : String
  installMode : String
  updateMode : String
  cacheQueryOptions : CacheQueryOptions
  urls : List String
  patterns : List String
  deriving DecidableEq, Repr

/-- `[].concat(...Array.from(filesPerGroup.values())).sort()` of
`processAssetGroups`: the concatenation of the per-group matched file
lists, sorted. -/
def allMatchedFilesOf (filesPerGroup : List (AssetGroupConfig × List String)) :
    List String :=
  sortStrings (filesPerGroup.map Prod.snd).flatten

/-- The hash-table population loop of `processAssetGroups`:
`hashTable[joinUrls(baseHref, file)] = hash(file)` for each file in
order. -/
def buildHashTable (fs : Fs) (baseHref : String) (files : List String) :
    List (String × String) :=
  files.foldl (fun table file => insertHash table (joinUrls baseHref file) (fs.hash file)) []

/-- The per-group object emitted at the end of `processAssetGroups`. -/
def emitAssetGroup (globToRegex : String → Bool → String) (baseHref : String)
    (gm : AssetGroupConfig × List String) : AssetGroup :=
  { name := gm.1.name
    installMode := orTruthy gm.1.installMode "prefetch"
    updateMode := orTruthy gm.1.updateMode (orTruthy gm.1.installMode "prefetch")
    cacheQueryOptions := buildCacheQueryOptions gm.1.cacheQueryOptions
    urls := gm.2.map (fun url => joinUrls baseHref url)
    patterns := (gm.1.urls.getD []).map
      (fun url => urlToRegex globToRegex url baseHref true) }

/-- `Generator.processAssetGroups(config, hashTable)` from
`generator.mjs`: computes the per-group files, fills the hash table
(returned here instead of mutated), and emits the processed groups. -/
def Generator.processAssetGroups (regexTest : String → String → Bool)
    (globToRegex : String → Bool → String) (gen : Generator) (config : Config) :
    Except String (List AssetGroup × List (String × String)) :=
  match computeFilesPerGroup regexTest gen.fs.list (config.assetGroups.getD []) [] with
  | .error e => .error e
  | .ok filesPerGroup =>
    .ok
      (filesPerGroup.map (emitAssetGroup globToRegex gen.baseHref),
        buildHashTable gen.fs gen.baseHref (allMatchedFilesOf filesPerGroup))

/-- One emitted data group of the manifest. A falsy (absent or empty)
`timeout` yields no `timeoutMs`. -/
structure DataGroup where
  name : String
  patterns : List String
  strategy : String
  maxSize : Option Nat
  maxAge : Nat
  timeoutMs : Option Nat
  cacheQueryOptions : CacheQueryOptions
  version : Nat
  deriving DecidableEq, Repr

/-- `Generator.processDataGroups(config)` from `generator.mjs`,
parametrised by the imported `parseDurationToMs`. -/
def Generator.processDataGroups (globToRegex : String → Bool → String)
    (parseDurationToMs : String → Nat) (gen : Generator) (config : Config) :
    List DataGroup :=
  (config.dataGroups.getD []).map (fun group =>
    { name := group.name
      patterns := group.urls.map (fun url => urlToRegex globToRegex url gen.baseHref true)
      strategy := orTruthy group.cacheConfig.strategy "performance"
      maxSize := group.cacheConfig.maxSize
      maxAge := parseDurationToMs group.cacheConfig.maxAge
      timeoutMs := match group.cacheConfig.timeout with
        | some t => if t.data.isEmpty then none else some (parseDurationToMs t)
        | none => none
      cacheQueryOptions := buildCacheQueryOptions group.cacheQueryOptions
      version := group.version.getD 1 })

/-- The first value stored under `key` in an association list (the value
a JS object lookup returns, given unique keys). -/
def getValue (table : List (String × String)) (key : String) : String :=
  ((table.find? (fun kv => kv.1 = key)).map Prod.snd).getD ""

/-- `withOrderedKeys(unorderedObj)` from `generator.mjs`: rebuild the
object inserting the keys in sorted order. -/
def withOrderedKeys (table : List (String × String)) : List (String × String) :=
  (sortStrings (table.map Prod.fst)).map (fun key => (key, getValue table key))

/-- The manifest returned by `Generator.process`. -/
structure Manifest where
  configVersion : Nat
  timestamp : Nat
  appData : Option String
  index : String
  assetGroups : List AssetGroup
  dataGroups : List DataGroup
  hashTable : List (String × String)
  navigationUrls : List NavigationUrl
  navigationRequestStrategy : String
  deriving DecidableEq, Repr

/-- `Generator.process(config)` from `generator.mjs`; `now` stands for
`Date.now()`. -/
def Generator.process (regexTest : String → String → Bool)
    (globToRegex : String → Bool → String) (parseDurationToMs : String → Nat)
    (gen : Generator) (now : Nat) (config : Config) : Except String Manifest :=
  match Generator.processAssetGroups regexTest globToRegex gen config with
  | .error e => .error e
  | .ok (assetGroups, hashTable) =>
    .ok
      { configVersion := 1
        timestamp := now
        appData := config.appData
        index := joinUrls gen.baseHref config.index
        assetGroups := assetGroups
        dataGroups := Generator.processDataGroups globToRegex parseDurationToMs gen config
        hashTable := withOrderedKeys hashTable
        navigationUrls := processNavigationUrls globToRegex gen.baseHref config.navigationUrls
        navigationRequestStrategy := config.navigationRequestStrategy.getD "performance" }

/-- Modelled from the spec: the restricted glob grammar of the Glob
Compiler (`globToRegex` from `./glob`, not part of these sources),
interpreted directly as an anchored matcher on character lists.
`*` matches any run of characters within one path segment (no `/`),
`**` matches any run of characters including `/`, `?` matches exactly
one character (or a literal `?` in literal-question-mark mode), every
other character matches itself. The `fuel` argument only forces
termination; one unit is spent per step, and each step shortens the
pattern or the candidate, so `|pattern| + |candidate| + 1` units
always suffice. -/
def globMatchAux (literalQM : Bool) : Nat → List Char → List Char → Bool
  | 0, _, _ => false
  | _ + 1, [], [] => true
  | _ + 1, [], _ :: _ => false
  | fuel + 1, '*' :: '*' :: ps, cs =>
    globMatchAux literalQM fuel ps cs ||
      (match cs with
       | [] => false
       | _ :: cs2 => globMatchAux literalQM fuel ('*' :: '*' :: ps) cs2)
  | fuel + 1, '*' :: ps, cs =>
    globMatchAux literalQM fuel ps cs ||
      (match cs with
       | [] => false
       | c :: cs2 => !(c = '/') && globMatchAux literalQM fuel ('*' :: ps) cs2)
  | fuel + 1, '?' :: ps, cs =>
    if literalQM then
      match cs with
      | '?' :: cs2 => globMatchAux literalQM fuel ps cs2
      | _ => false
    else
      match cs with
      | _ :: cs2 => globMatchAux literalQM fuel ps cs2
      | [] => false
  | fuel + 1, p :: ps, cs =>
    match cs with
    | c :: cs2 => p = c && globMatchAux literalQM fuel ps cs2
    | [] => false

/-- Modelled from the spec: anchored matching of a whole candidate
string against a glob pattern (the effect of testing
`new RegExp('^' + globToRegex(pattern) + '$')` on the candidate). -/
def globMatch (literalQM : Bool) (pattern candidate : String) : Bool :=
  globMatchAux literalQM (pattern.data.length + candidate.data.length + 1)
    pattern.data candidate.data

/-- Modelled from the spec: whether a navigation URL falls under the
allow/deny list that `processNavigationUrls` produces — the §4.1 fold
over the entries, testing each entry's anchored regular expression
(compiled from the entry's glob by the Glob Compiler in
non-literal-question-mark mode, relative to `baseHref`). -/
def navigationListMatch (baseHref : String) (urls : Option (List String))
    (candidate : String) : Bool :=
  matchesList candidate ((urls.getD DEFAULT_NAVIGATION_URLS).map (fun url =>
    let positive := !strStartsWith url "!"
    let url := if positive then url else strDrop url 1
    { positive
      test := fun c => globMatch false (urlToRegexInput url baseHref) c : CompiledPattern }))

/-- The pattern-list matching rule exactly as §4.1 of the spec words it:
fold left over the compiled pattern list starting from `false`; a
positive pattern replaces the accumulator with `acc OR test`, a
negative one with `acc AND NOT test`. -/
def matchesSpecFold (candidate : String) (patterns : List CompiledPattern) : Bool :=
  patterns.foldl
    (fun acc p => if p.positive then acc || p.test candidate else acc && !p.test candidate)
    false

/-- The base-stripping step exactly as claim C8 words it: remove a
single leading `./` from the base. -/
def stripDotSlashLead (base : String) : String :=
  if strStartsWith base "./" then strDrop base 2 else base

/-- Equality of manifests on every field except `timestamp`. -/
def eqExceptTimestamp (m1 m2 : Manifest) : Prop :=
  m1.configVersion = m2.configVersion ∧ m1.appData = m2.appData ∧ m1.index = m2.index ∧
    m1.assetGroups = m2.assetGroups ∧ m1.dataGroups = m2.dataGroups ∧
    m1.hashTable = m2.hashTable ∧ m1.navigationUrls = m2.navigationUrls ∧
    m1.navigationRequestStrategy = m2.navigationRequestStrategy

/-- The sorted list of fresh files matched by one group: one step of the
partitioning loop. -/
def matchedOf (r : String → String → Bool) (allFiles : List String)
    (group : AssetGroupConfig) (seen : List String) : List String :=
  sortStrings ((allFiles.filter (globListToMatcher r (group.files.getD []))).filter
    (fun file => !seen.contains file))

deriving instance DecidableEq for Except

/-- Sample collaborators for concrete witnesses. -/
def sampleR : String → String → Bool := fun _ _ => true

def sampleG2r : String → Bool → String := fun s _ => s

def samplePd : String → Nat := fun _ => 0

def sampleGen : Generator :=
  { fs := { list := ["/main.js", "/vendor.js"], hash := fun _ => "h1" }, baseHref := "/" }

/-- An asset-group configuration with an empty `files` glob list. -/
def emptyFilesGroup : AssetGroupConfig :=
  { name := "app", installMode := none, updateMode := none, files := some [],
    urls := none, versionedFiles := false, cacheQueryOptions := none }

def emptyFilesConfig : Config :=
  { index := "/index.html", appData := none, assetGroups := some [emptyFilesGroup],
    dataGroups := none, navigationUrls := none, navigationRequestStrategy := none }

/-- The group that `processAssetGroups` emits for `emptyFilesGroup`. -/
def emptyFilesGroupOut : AssetGroup :=
  { name := "app", installMode := "prefetch", updateMode := "prefetch",
    cacheQueryOptions := { ignoreVary := true, ignoreSearch := none },
    urls := [], patterns := [] }

/-- An asset group declaring the retired `versionedFiles` option. -/
def versionedGroup : AssetGroupConfig :=
  { name := "app", installMode := none, updateMode := none, files := some ["/**"],
    urls := none, versionedFiles := true, cacheQueryOptions := none }

def versionedConfig : Config :=
  { index := "/index.html", appData := none, assetGroups := some [versionedGroup],
    dataGroups := none, navigationUrls := none, navigationRequestStrategy := none }

def sampleGroup : AssetGroupConfig :=
  { name := "app"
    installMode := none
    updateMode := none
    files := some ["/**"]
    urls := none
    versionedFiles := false
    cacheQueryOptions := none }

def sampleConfig : Config :=
  { index := "/index.html"
    appData := none
    assetGroups := some [sampleGroup]
    dataGroups := none
    navigationUrls := none
    navigationRequestStrategy := none }

def sampleGroupOut : AssetGroup :=
  { name := "app"
    installMode := "prefetch"
    updateMode := "prefetch"
    cacheQueryOptions := { ignoreVary := true, ignoreSearch := none }
    urls := ["/main.js", "/vendor.js"]
    patterns := [] }

def sampleManifest : Manifest :=
  { configVersion := 1
    timestamp := 0
    appData := none
    index := "/index.html"
    assetGroups := [sampleGroupOut]
    dataGroups := []
    hashTable := [("/main.js", "h1"), ("/vendor.js", "h1")]
    navigationUrls :=
      [{ positive := true, regex := "^/**$" },
       { positive := false, regex := "^/**/*.*$" },
       { positive := false, regex := "^/**/*__*$" },
       { positive := false, regex := "^/**/*__*/**$" }]
    navigationRequestStrategy := "performance" }

def sampleManifest5 : Manifest := { sampleManifest with timestamp := 5 }

def trioGroupA : AssetGroupConfig :=
  { name := "a"
    installMode := none
    updateMode := none
    files := some ["/**"]
    urls := none
    versionedFiles := false
    cacheQueryOptions := none }

def trioGroupB : AssetGroupConfig := { trioGroupA with name := "b" }

def trioGroupC : AssetGroupConfig := { trioGroupA with name := "c" }

def trioConfig : Config :=
  { index := "/index.html"
    appData := none
    assetGroups := some [trioGroupA, trioGroupB, trioGroupC]
    dataGroups := none
    navigationUrls := none
    navigationRequestStrategy := none }

def trioGen : Generator :=
  { fs := { list := ["/f"], hash := fun _ => "h" }, baseHref := "/" }

def trioOutA : AssetGroup :=
  { name := "a"
    installMode := "prefetch"
    updateMode := "prefetch"
    cacheQueryOptions := { ignoreVary := true, ignoreSearch := none }
    urls := ["/f"]
    patterns := [] }

def trioOutB : AssetGroup := { trioOutA with name := "b", urls := [] }

def trioOutC : AssetGroup := { trioOutA with name := "c", urls := [] }

def trioOut : List AssetGroup := [trioOutA, trioOutB, trioOutC]

def trioTable : List (String × String) := [("/f", "h")]

/-! ### Sorting facts -/

theorem charListLe_iff : ∀ {as bs : List Char},
    charListLe as bs = true ↔ ¬ List.Lex (· < ·) bs as
  | [], bs => iff_of_true rfl (List.Lex.not_nil_right _ _)
  | a :: as, [] => by
    simp only [charListLe]
    constructor
    · intro h; cases h
    · intro h; exact absurd List.Lex.nil h
  | a :: as, b :: bs => by
    by_cases hab : a = b
    · subst hab
      show (if a = a then charListLe as bs else decide (a < a)) = true ↔ _
      rw [if_pos rfl, charListLe_iff]
      constructor
      · intro h hl; exact h (List.Lex.cons_iff.mp hl)
      · intro h hl; exact h (List.Lex.cons hl)
    · simp only [charListLe, if_neg hab, decide_eq_true_iff]
      constructor
      · intro h hl
        cases hl with
        | cons h' => exact hab rfl
        | rel h' => exact lt_asymm h h'
      · intro h
        rcases lt_trichotomy a b with h' | h' | h'
        · exact h'
        · exact absurd h' hab
        · exact absurd (List.Lex.rel h') h

theorem strLeB_iff_le {a b : String} : strLeB a b = true ↔ a ≤ b := by
  rw [← not_lt, String.lt_iff_toList_lt]
  exact charListLe_iff

instance : IsTotal String (fun a b => strLeB a b = true) :=
  ⟨fun a b => by
    rw [strLeB_iff_le, strLeB_iff_le]
    exact le_total a b⟩

instance : IsTrans String (fun a b => strLeB a b = true) :=
  ⟨fun _ _ _ hab hbc =>
    strLeB_iff_le.mpr (le_trans (strLeB_iff_le.mp hab) (strLeB_iff_le.mp hbc))⟩

instance : IsAntisymm String (fun a b => strLeB a b = true) :=
  ⟨fun _ _ hab hba => le_antisymm (strLeB_iff_le.mp hab) (strLeB_iff_le.mp hba)⟩

theorem sortStrings_perm (l : List String) : List.Perm (sortStrings l) l :=
  List.perm_insertionSort _ l

theorem mem_sortStrings {a : String} {l : List String} : a ∈ sortStrings l ↔ a ∈ l :=
  (sortStrings_perm l).mem_iff

theorem sortStrings_sorted_r (l : List String) :
    (sortStrings l).Sorted (fun a b => strLeB a b = true) :=
  List.sorted_insertionSort _ l

theorem sortStrings_sorted (l : List String) : (sortStrings l).Sorted (· ≤ ·) :=
  (sortStrings_sorted_r l).imp (fun h => strLeB_iff_le.mp h)

theorem sortStrings_eq_of_perm {l1 l2 : List String} (h : List.Perm l1 l2) :
    sortStrings l1 = sortStrings l2 :=
  List.eq_of_perm_of_sorted
    ((sortStrings_perm l1).trans (h.trans (sortStrings_perm l2).symm))
    (sortStrings_sorted_r l1) (sortStrings_sorted_r l2)

theorem sortStrings_nodup {l : List String} (h : l.Nodup) : (sortStrings l).Nodup :=
  ((sortStrings_perm l).nodup_iff).mpr h

/-! ### String facts -/

theorem string_data_eq {s t : String} (h : s.data = t.data) : s = t := by
  cases s; cases t; exact congrArg String.mk h

theorem string_slash_head {s : String} :
    strStartsWith s "/" = true ↔ ∃ t, s.data = '/' :: t := by
  have hd : "/".data = ['/'] := rfl
  unfold strStartsWith
  rw [hd]
  cases h : s.data with
  | nil => simp [List.isPrefixOf]
  | cons c cs =>
    simp only [List.isPrefixOf, List.isPrefixOf_nil_left, Bool.and_true, beq_iff_eq]
    constructor
    · intro h'; exact ⟨cs, by rw [h']⟩
    · rintro ⟨t, ht⟩; cases ht; rfl

theorem data_strDrop (s : String) (n : Nat) : (strDrop s n).data = s.data.drop n := rfl

theorem joinUrls_inj {base b1 b2 : String}
    (h1 : strStartsWith b1 "/" = true) (h2 : strStartsWith b2 "/" = true)
    (heq : joinUrls base b1 = joinUrls base b2) : b1 = b2 := by
  obtain ⟨t1, ht1⟩ := string_slash_head.mp h1
  obtain ⟨t2, ht2⟩ := string_slash_head.mp h2
  unfold joinUrls at heq
  rw [h1] at heq
  rw [h2] at heq
  by_cases he : strEndsWith base "/"
  · rw [he] at heq
    simp only [Bool.true_and, if_pos] at heq
    have hdata := congrArg String.data heq
    simp only [String.data_append, data_strDrop, ht1, ht2, List.drop_succ_cons,
      List.drop_zero, List.append_cancel_left_eq] at hdata
    exact string_data_eq (by rw [ht1, ht2, hdata])
  · rw [Bool.not_eq_true] at he
    rw [he] at heq
    simp only [Bool.false_and, Bool.not_false, Bool.not_true, Bool.and_false,
      Bool.false_eq_true, if_false, ite_false] at heq
    have hdata := congrArg String.data heq
    simp only [String.data_append, List.append_cancel_left_eq] at hdata
    exact string_data_eq hdata

/-! ### Hash-table facts -/

theorem insertHash_of_not_mem {t : List (String × String)} {k : String} (v : String)
    (h : k ∉ t.map Prod.fst) : insertHash t k v = t ++ [(k, v)] := by
  have hany : t.any (fun kv => kv.1 = k) = false := by
    simp only [List.any_eq_false, decide_eq_true_eq]
    intro x hx he
    exact h (by rw [← he]; exact List.mem_map_of_mem _ hx)
  unfold insertHash
  rw [hany]
  simp

theorem insertHash_keys (t : List (String × String)) (k v : String) :
    (insertHash t k v).map Prod.fst =
      if k ∈ t.map Prod.fst then t.map Prod.fst else t.map Prod.fst ++ [k] := by
  by_cases hmem : k ∈ t.map Prod.fst
  · rw [if_pos hmem]
    have hany : t.any (fun kv => kv.1 = k) = true := by
      simp only [List.any_eq_true, decide_eq_true_eq]
      obtain ⟨kv, hkv, he⟩ := List.mem_map.mp hmem
      exact ⟨kv, hkv, he⟩
    unfold insertHash
    rw [hany]
    simp only [if_true, List.map_map]
    refine List.map_congr_left (fun kv _ => ?_)
    by_cases hk : kv.1 = k
    · simp [hk]
    · simp [hk]
  · rw [if_neg hmem, insertHash_of_not_mem v hmem]
    simp

theorem foldl_insertHash_keys_nodup (keyF hashF : String → String) :
    ∀ (files : List String) (acc : List (String × String)),
      (acc.map Prod.fst).Nodup →
      ((files.foldl (fun t f => insertHash t (keyF f) (hashF f)) acc).map Prod.fst).Nodup
  | [], _, h => h
  | f :: fs, acc, h => by
    rw [List.foldl_cons]
    refine foldl_insertHash_keys_nodup keyF hashF fs _ ?_
    rw [insertHash_keys]
    by_cases hmem : keyF f ∈ acc.map Prod.fst
    · rwa [if_pos hmem]
    · rw [if_neg hmem]
      refine List.Nodup.append h (List.nodup_singleton _) ?_
      intro a ha hb
      rw [List.mem_singleton] at hb
      subst hb
      exact hmem ha

theorem foldl_insertHash_eq (keyF hashF : String → String) :
    ∀ (files : List String) (acc : List (String × String)),
      (acc.map Prod.fst ++ files.map keyF).Nodup →
      files.foldl (fun t f => insertHash t (keyF f) (hashF f)) acc
        = acc ++ files.map (fun f => (keyF f, hashF f))
  | [], acc, _ => by simp
  | f :: fs, acc, h => by
    have hk : keyF f ∉ acc.map Prod.fst := fun hmem =>
      (List.nodup_append.mp h).2.2 hmem (List.mem_cons_self _ _)
    rw [List.foldl_cons, insertHash_of_not_mem (hashF f) hk,
      foldl_insertHash_eq keyF hashF fs (acc ++ [(keyF f, hashF f)])
        (by simpa [List.append_assoc] using h)]
    simp

theorem getValue_of_mem :
    ∀ {t : List (String × String)}, (t.map Prod.fst).Nodup →
      ∀ {k v : String}, (k, v) ∈ t → getValue t k = v
  | [], _, _, _, h => absurd h (List.not_mem_nil _)
  | hd :: tl, hnd, k, v, h => by
    rcases List.mem_cons.mp h with h | h
    · subst h
      simp [getValue, List.find?_cons_of_pos]
    · have hne : ¬hd.1 = k := by
        intro he
        have : k ∈ tl.map Prod.fst := by
          rw [← show (k, v).1 = k from rfl]
          exact List.mem_map_of_mem _ h
        rw [List.map_cons, List.nodup_cons] at hnd
        exact hnd.1 (he ▸ this)
      have := getValue_of_mem (by rw [List.map_cons, List.nodup_cons] at hnd; exact hnd.2) h
      simp only [getValue, List.find?] at this ⊢
      rw [show (decide (hd.1 = k)) = false by simpa using hne]
      exact this

theorem exists_val_of_mem_keys {t : List (String × String)} {k : String}
    (h : k ∈ t.map Prod.fst) : ∃ v, (k, v) ∈ t := by
  obtain ⟨kv, hkv, he⟩ := List.mem_map.mp h
  exact ⟨kv.2, by rwa [show (k, kv.2) = kv by rw [← he]]⟩

theorem withOrderedKeys_keys (t : List (String × String)) :
    (withOrderedKeys t).map Prod.fst = sortStrings (t.map Prod.fst) := by
  unfold withOrderedKeys
  rw [List.map_map]
  exact List.map_id _

theorem mem_withOrderedKeys {t : List (String × String)} {k : String}
    (h : k ∈ t.map Prod.fst) : (k, getValue t k) ∈ withOrderedKeys t := by
  unfold withOrderedKeys
  exact List.mem_map_of_mem _ (mem_sortStrings.mpr h)

/-! ### Facts about the group-partitioning loop -/

theorem mem_matched_iff {m : String → Bool} {allFiles seen : List String} {f : String} :
    f ∈ sortStrings ((allFiles.filter m).filter (fun file => !seen.contains file)) ↔
      f ∈ allFiles ∧ m f = true ∧ f ∉ seen := by
  rw [mem_sortStrings, List.mem_filter, List.mem_filter]
  simp [and_assoc]

theorem cfpg_fst {r : String → String → Bool} {allFiles : List String} :
    ∀ {groups : List AssetGroupConfig} {seen : List String}
      {fpg : List (AssetGroupConfig × List String)},
      computeFilesPerGroup r allFiles groups seen = .ok fpg →
      fpg.map Prod.fst = groups
  | [], _, fpg, h => by
    cases h; rfl
  | group :: rest, seen, fpg, h => by
    by_cases hv : group.versionedFiles
    · simp [computeFilesPerGroup, hv] at h
    · rw [Bool.not_eq_true] at hv
      simp only [computeFilesPerGroup, hv, Bool.false_eq_true, if_false, ite_false] at h
      cases hrec : computeFilesPerGroup r allFiles rest
          (seen ++ sortStrings ((allFiles.filter
            (globListToMatcher r (group.files.getD []))).filter
              (fun file => !seen.contains file))) with
      | error e => rw [hrec] at h; cases h
      | ok tail =>
        rw [hrec] at h
        cases h
        simpa using cfpg_fst hrec

theorem cfpg_cons {r : String → String → Bool} {allFiles : List String}
    {group : AssetGroupConfig} {rest : List AssetGroupConfig} {seen : List String} :
    computeFilesPerGroup r allFiles (group :: rest) seen =
      if group.versionedFiles then .error (versionedFilesMessage group.name)
      else
        match computeFilesPerGroup r allFiles rest
            (seen ++ matchedOf r allFiles group seen) with
        | .ok tail => .ok ((group, matchedOf r allFiles group seen) :: tail)
        | .error e => .error e := rfl

theorem cfpg_error_of_versioned {r : String → String → Bool} {allFiles : List String} :
    ∀ {groups : List AssetGroupConfig} {seen : List String} {g : AssetGroupConfig},
      g ∈ groups → g.versionedFiles = true →
      ∃ g', g' ∈ groups ∧ g'.versionedFiles = true ∧
        computeFilesPerGroup r allFiles groups seen =
          .error (versionedFilesMessage g'.name)
  | [], _, _, hg, _ => absurd hg (List.not_mem_nil _)
  | group :: rest, seen, g, hg, hv => by
    by_cases hv0 : group.versionedFiles
    · exact ⟨group, List.mem_cons_self _ _, hv0, by rw [cfpg_cons, if_pos hv0]⟩
    · have hg' : g ∈ rest := by
        rcases List.mem_cons.mp hg with h | h
        · exact absurd (h ▸ hv) hv0
        · exact h
      obtain ⟨g', hg'mem, hg'v, he⟩ :=
        @cfpg_error_of_versioned r allFiles rest
          (seen ++ matchedOf r allFiles group seen) g hg' hv
      refine ⟨g', List.mem_cons_of_mem _ hg'mem, hg'v, ?_⟩
      rw [cfpg_cons, if_neg hv0, he]

theorem cfpg_mem {r : String → String → Bool} {allFiles : List String} :
    ∀ {groups : List AssetGroupConfig} {seen : List String}
      {fpg : List (AssetGroupConfig × List String)},
      computeFilesPerGroup r allFiles groups seen = .ok fpg →
      ∀ {p}, p ∈ fpg → ∀ {f}, f ∈ p.2 →
        f ∈ allFiles ∧ globListToMatcher r (p.1.files.getD []) f = true ∧ f ∉ seen
  | [], _, _, h, p, hp, _, _ => by cases h; exact absurd hp (List.not_mem_nil _)
  | group :: rest, seen, fpg, h, p, hp, f, hf => by
    rw [cfpg_cons] at h
    by_cases hv : group.versionedFiles
    · rw [if_pos hv] at h; cases h
    · rw [if_neg hv] at h
      cases hrec : computeFilesPerGroup r allFiles rest
          (seen ++ matchedOf r allFiles group seen) with
      | error e => rw [hrec] at h; cases h
      | ok tail =>
        rw [hrec] at h
        cases h
        rcases List.mem_cons.mp hp with hp | hp
        · subst hp
          exact mem_matched_iff.mp hf
        · obtain ⟨h1, h2, h3⟩ := cfpg_mem hrec hp hf
          exact ⟨h1, h2, fun hmem => h3 (List.mem_append_left _ hmem)⟩

theorem cfpg_pairwise {r : String → String → Bool} {allFiles : List String} :
    ∀ {groups : List AssetGroupConfig} {seen : List String}
      {fpg : List (AssetGroupConfig × List String)},
      computeFilesPerGroup r allFiles groups seen = .ok fpg →
      fpg.Pairwise (fun p q => ∀ f, f ∈ p.2 → f ∉ q.2)
  | [], _, _, h => by cases h; exact List.Pairwise.nil
  | group :: rest, seen, fpg, h => by
    rw [cfpg_cons] at h
    by_cases hv : group.versionedFiles
    · rw [if_pos hv] at h; cases h
    · rw [if_neg hv] at h
      cases hrec : computeFilesPerGroup r allFiles rest
          (seen ++ matchedOf r allFiles group seen) with
      | error e => rw [hrec] at h; cases h
      | ok tail =>
        rw [hrec] at h
        cases h
        refine List.Pairwise.cons (fun q hq f hf hfq => ?_) (cfpg_pairwise hrec)
        exact (cfpg_mem hrec hq hfq).2.2 (List.mem_append_right _ hf)

theorem cfpg_nodup {r : String → String → Bool} {allFiles : List String}
    (hnd : allFiles.Nodup) :
    ∀ {groups : List AssetGroupConfig} {seen : List String}
      {fpg : List (AssetGroupConfig × List String)},
      computeFilesPerGroup r allFiles groups seen = .ok fpg →
      ∀ {p}, p ∈ fpg → p.2.Nodup
  | [], _, _, h, p, hp => by cases h; exact absurd hp (List.not_mem_nil _)
  | group :: rest, seen, fpg, h, p, hp => by
    rw [cfpg_cons] at h
    by_cases hv : group.versionedFiles
    · rw [if_pos hv] at h; cases h
    · rw [if_neg hv] at h
      cases hrec : computeFilesPerGroup r allFiles rest
          (seen ++ matchedOf r allFiles group seen) with
      | error e => rw [hrec] at h; cases h
      | ok tail =>
        rw [hrec] at h
        cases h
        rcases List.mem_cons.mp hp with hp | hp
        · subst hp
          exact sortStrings_nodup ((hnd.filter _).filter _)
        · exact cfpg_nodup hnd hrec hp

theorem cfpg_first {r : String → String → Bool} {allFiles : List String} :
    ∀ {groups : List AssetGroupConfig} {seen : List String}
      {fpg : List (AssetGroupConfig × List String)},
      computeFilesPerGroup r allFiles groups seen = .ok fpg →
      ∀ {f : String}, f ∈ allFiles → f ∉ seen →
      ∀ {i : Nat} {G : AssetGroupConfig}, groups[i]? = some G →
      globListToMatcher r (G.files.getD []) f = true →
      (∀ k, k < i → ∀ G', groups[k]? = some G' →
        globListToMatcher r (G'.files.getD []) f = false) →
      ∃ p, fpg[i]? = some p ∧ p.1 = G ∧ f ∈ p.2
  | [], _, _, h, f, _, _, i, G, hG, _, _ => by simp at hG
  | group :: rest, seen, fpg, h, f, hf, hseen, i, G, hG, hm, hfirst => by
    rw [cfpg_cons] at h
    by_cases hv : group.versionedFiles
    · rw [if_pos hv] at h; cases h
    · rw [if_neg hv] at h
      cases hrec : computeFilesPerGroup r allFiles rest
          (seen ++ matchedOf r allFiles group seen) with
      | error e => rw [hrec] at h; cases h
      | ok tail =>
        rw [hrec] at h
        cases h
        cases i with
        | zero =>
          rw [List.getElem?_cons_zero] at hG
          cases hG
          exact ⟨(group, matchedOf r allFiles group seen), List.getElem?_cons_zero, rfl,
            mem_matched_iff.mpr ⟨hf, hm, hseen⟩⟩
        | succ k =>
          rw [List.getElem?_cons_succ] at hG
          have hnot0 : f ∉ matchedOf r allFiles group seen := fun hmem =>
            by simpa [hfirst 0 (Nat.succ_pos k) group List.getElem?_cons_zero] using
              (mem_matched_iff.mp hmem).2.1
          have hseen' : f ∉ seen ++ matchedOf r allFiles group seen := fun hmem => by
            rcases List.mem_append.mp hmem with hmem | hmem
            · exact hseen hmem
            · exact hnot0 hmem
          obtain ⟨p, hp, hp1, hp2⟩ := cfpg_first hrec hf hseen' hG hm
            (fun k' hk' G' hG' =>
              hfirst (k' + 1) (Nat.succ_lt_succ hk') G' (by rwa [List.getElem?_cons_succ]))
          exact ⟨p, by rwa [List.getElem?_cons_succ], hp1, hp2⟩

theorem cfpg_perm {r : String → String → Bool} {l1 l2 : List String}
    (hp : List.Perm l1 l2) :
    ∀ (groups : List AssetGroupConfig) (seen : List String),
      computeFilesPerGroup r l1 groups seen = computeFilesPerGroup r l2 groups seen
  | [], _ => rfl
  | group :: rest, seen => by
    by_cases hv : group.versionedFiles
    · rw [cfpg_cons, cfpg_cons, if_pos hv, if_pos hv]
    · have hmatched : matchedOf r l1 group seen = matchedOf r l2 group seen :=
        sortStrings_eq_of_perm ((hp.filter _).filter _)
      rw [cfpg_cons, cfpg_cons, if_neg hv, if_neg hv, hmatched,
        cfpg_perm hp rest (seen ++ matchedOf r l2 group seen)]

/-! ### Destructuring the pipeline -/

theorem processAssetGroups_ok_iff {r : String → String → Bool}
    {g2r : String → Bool → String} {gen : Generator} {config : Config}
    {out : List AssetGroup} {table : List (String × String)} :
    Generator.processAssetGroups r g2r gen config = .ok (out, table) ↔
      ∃ fpg, computeFilesPerGroup r gen.fs.list (config.assetGroups.getD []) [] = .ok fpg ∧
        out = fpg.map (emitAssetGroup g2r gen.baseHref) ∧
        table = buildHashTable gen.fs gen.baseHref (allMatchedFilesOf fpg) := by
  unfold Generator.processAssetGroups
  cases hc : computeFilesPerGroup r gen.fs.list (config.assetGroups.getD []) [] with
  | error e => simp [hc]
  | ok fpg =>
    simp only [hc, Except.ok.injEq, Prod.mk.injEq, Option.some.injEq]
    constructor
    · rintro ⟨h1, h2⟩
      exact ⟨fpg, rfl, h1.symm, h2.symm⟩
    · rintro ⟨fpg', he, h1, h2⟩
      cases he
      exact ⟨h1.symm, h2.symm⟩

theorem process_ok_iff {r : String → String → Bool} {g2r : String → Bool → String}
    {pd : String → Nat} {gen : Generator} {now : Nat} {config : Config} {m : Manifest} :
    Generator.process r g2r pd gen now config = .ok m ↔
      ∃ out table, Generator.processAssetGroups r g2r gen config = .ok (out, table) ∧
        m = { configVersion := 1
              timestamp := now
              appData := config.appData
              index := joinUrls gen.baseHref config.index
              assetGroups := out
              dataGroups := Generator.processDataGroups g2r pd gen config
              hashTable := withOrderedKeys table
              navigationUrls := processNavigationUrls g2r gen.baseHref config.navigationUrls
              navigationRequestStrategy := config.navigationRequestStrategy.getD "performance" } := by
  unfold Generator.process
  cases hc : Generator.processAssetGroups r g2r gen config with
  | error e => simp [hc]
  | ok pair =>
    obtain ⟨out0, table0⟩ := pair
    simp only [hc, Except.ok.injEq, Prod.mk.injEq]
    constructor
    · intro h
      exact ⟨out0, table0, ⟨rfl, rfl⟩, h.symm⟩
    · rintro ⟨out', table', ⟨h1, h2⟩, h⟩
      subst h1; subst h2
      exact h.symm

theorem process_error_iff {r : String → String → Bool} {g2r : String → Bool → String}
    {pd : String → Nat} {gen : Generator} {now : Nat} {config : Config} {e : String} :
    Generator.process r g2r pd gen now config = .error e ↔
      computeFilesPerGroup r gen.fs.list (config.assetGroups.getD []) [] = .error e := by
  unfold Generator.process Generator.processAssetGroups
  cases hc : computeFilesPerGroup r gen.fs.list (config.assetGroups.getD []) [] with
  | error e' => simp [hc]
  | ok fpg => simp [hc]

/-! ### Claim theorems -/

theorem matchesList_no_positive {file : String} :
    ∀ {patterns : List CompiledPattern},
      (∀ p ∈ patterns, p.positive = false) → matchesList file patterns = false
  | [], _ => rfl
  | hd :: tl, h => by
    have hhd : hd.positive = false := h hd (List.mem_cons_self _ _)
    have hstep : matchesList file (hd :: tl) = matchesList file tl := by
      simp [matchesList, hhd]
    rw [hstep]
    exact matchesList_no_positive (fun p hp => h p (List.mem_cons_of_mem _ hp))

/-- C3: `matches(candidate, patterns)` equals the left fold from `false`
in which a positive pattern turns the accumulator into
`acc OR test` and a negative one into `acc AND NOT test`; in
particular a pattern list without any positive pattern (hence also a
lone negative pattern) yields `false` for every candidate. -/
theorem matches_is_left_fold (candidate : String) (patterns : List CompiledPattern) :
    matchesList candidate patterns = matchesSpecFold candidate patterns ∧
      ((∀ p ∈ patterns, p.positive = false) → matchesList candidate patterns = false) :=
  ⟨rfl, matchesList_no_positive⟩

theorem matches_is_left_fold_witness :
    matchesList "x" [CompiledPattern.mk false (fun _ => true)] = false := by
  have hp : ∀ p ∈ [CompiledPattern.mk false (fun _ => true)], p.positive = false := by
    intro p hp
    rw [List.mem_singleton] at hp
    rw [hp]
  exact (matches_is_left_fold "x" _).2 hp

/-- C6: the URL join contract — `join(base, relative)` concatenates with
exactly one separating slash: both sides slashed drops one of the two
slashes, neither side slashed inserts one, otherwise plain
concatenation; with the three concrete examples. -/
theorem joinUrls_contract (a b : String) :
    (strEndsWith a "/" = true → strStartsWith b "/" = true →
      joinUrls a b = a ++ strDrop b 1) ∧
    (strEndsWith a "/" = false → strStartsWith b "/" = false →
      joinUrls a b = a ++ "/" ++ b) ∧
    (strEndsWith a "/" = true ∧ strStartsWith b "/" = false ∨
        strEndsWith a "/" = false ∧ strStartsWith b "/" = true →
      joinUrls a b = a ++ b) ∧
    joinUrls "/base/" "/x" = "/base/x" ∧ joinUrls "/base" "x" = "/base/x" ∧
      joinUrls "/base/" "x" = "/base/x" := by
  refine ⟨?_, ?_, ?_, by decide, by decide, by decide⟩
  · intro h1 h2
    simp [joinUrls, h1, h2]
  · intro h1 h2
    simp [joinUrls, h1, h2]
  · rintro (⟨h1, h2⟩ | ⟨h1, h2⟩) <;> simp [joinUrls, h1, h2]

theorem joinUrls_contract_witness :
    strEndsWith "/base/" "/" = true ∧ strStartsWith "/x" "/" = true ∧
      joinUrls "/base/" "/x" = "/base/" ++ strDrop "/x" 1 :=
  ⟨by decide, by decide, (joinUrls_contract "/base/" "/x").1 (by decide) (by decide)⟩

/-- C9: with no caller-supplied `navigationUrls`, `processNavigationUrls`
returns exactly the fixed four-entry default list (first entry
positive, the remaining three negative), and under the resulting
allow/deny list `/foo/bar` is included while `/foo/bar.js`,
`/foo/a__b` and `/foo/a__b/c` are excluded (glob semantics modelled
from the spec, `globMatch`). -/
theorem default_navigation_urls (g2r : String → Bool → String) (base : String) :
    processNavigationUrls g2r base none =
      [{ positive := true, regex := "^" ++ g2r "/**" false ++ "$" },
       { positive := false, regex := "^" ++ g2r "/**/*.*" false ++ "$" },
       { positive := false, regex := "^" ++ g2r "/**/*__*" false ++ "$" },
       { positive := false, regex := "^" ++ g2r "/**/*__*/**" false ++ "$" }] ∧
    navigationListMatch base none "/foo/bar" = true ∧
    navigationListMatch base none "/foo/bar.js" = false ∧
    navigationListMatch base none "/foo/a__b" = false ∧
    navigationListMatch base none "/foo/a__b/c" = false :=
  ⟨rfl, rfl, rfl, rfl, rfl⟩

/-- C10: an asset group with an empty (or absent) `files` glob list
matches no file at all: `globListToMatcher([])` returns `false` on
every candidate (`false` being the base of the fold over the empty
pattern list), so the group's emitted `urls` list is empty. -/
theorem empty_globs_yield_no_files (r : String → String → Bool) (candidate : String)
    (g2r : String → Bool → String) (gen : Generator) (config : Config)
    (out : List AssetGroup) (table : List (String × String))
    (hok : Generator.processAssetGroups r g2r gen config = .ok (out, table)) :
    globListToMatcher r [] candidate = false ∧
    matchesList candidate [] = false ∧
    ∀ (i : Nat) (g : AssetGroupConfig),
      (config.assetGroups.getD [])[i]? = some g → g.files.getD [] = [] →
      ∃ og : AssetGroup, out[i]? = some og ∧ og.urls = [] := by
  refine ⟨rfl, rfl, ?_⟩
  intro i g hgi hempty
  rw [processAssetGroups_ok_iff] at hok
  obtain ⟨fpg, hfpg, hout, -⟩ := hok
  have hpi : (fpg.map Prod.fst)[i]? = some g := by rw [cfpg_fst hfpg]; exact hgi
  rw [List.getElem?_map] at hpi
  cases hp : fpg[i]? with
  | none => rw [hp] at hpi; cases hpi
  | some p =>
    rw [hp] at hpi
    injection hpi with hp1
    have hnil : p.2 = [] := by
      rw [List.eq_nil_iff_forall_not_mem]
      intro f hf
      have hm := (cfpg_mem hfpg (List.getElem?_mem hp) hf).2.1
      rw [hp1, hempty] at hm
      simp [globListToMatcher, matchesList] at hm
    refine ⟨emitAssetGroup g2r gen.baseHref p, ?_, ?_⟩
    · rw [hout, List.getElem?_map, hp]; rfl
    · simp [emitAssetGroup, hnil]

theorem empty_globs_yield_no_files_witness :
    (([emptyFilesGroupOut] : List AssetGroup)[0]?.map AssetGroup.urls) = some [] := by
  obtain ⟨og, hog, hurls⟩ :=
    (empty_globs_yield_no_files sampleR "/x" sampleG2r sampleGen emptyFilesConfig
        [emptyFilesGroupOut] [] (by decide)).2.2
      0 emptyFilesGroup (by decide) (by decide)
  rw [hog]
  simp [hurls]

/-- C7: a configuration with an asset group whose resources declare the
retired `versionedFiles` option makes `process` fail with a
configuration error naming that group, and no manifest — not even a
partial one — is returned. -/
theorem versionedFiles_rejection (r : String → String → Bool)
    (g2r : String → Bool → String) (pd : String → Nat) (gen : Generator) (now : Nat)
    (config : Config)
    (h : ∃ g ∈ config.assetGroups.getD [], g.versionedFiles = true) :
    ∃ g, g ∈ config.assetGroups.getD [] ∧ g.versionedFiles = true ∧
      Generator.process r g2r pd gen now config =
        .error (versionedFilesMessage g.name) ∧
      versionedFilesMessage g.name =
        "Asset-group " ++ g.name ++ " in ngsw-config.json uses the versionedFiles option, " ++
          "which is no longer supported. Use files instead." ∧
      ∀ m, Generator.process r g2r pd gen now config ≠ .ok m := by
  obtain ⟨g, hg, hv⟩ := h
  obtain ⟨g', hg', hv', he⟩ :=
    @cfpg_error_of_versioned r gen.fs.list (config.assetGroups.getD []) [] g hg hv
  refine ⟨g', hg', hv', process_error_iff.mpr he, by simp [versionedFilesMessage], ?_⟩
  intro m hm
  rw [process_ok_iff] at hm
  obtain ⟨out, table, hok, -⟩ := hm
  rw [processAssetGroups_ok_iff] at hok
  obtain ⟨fpg, hfpg, -, -⟩ := hok
  rw [he] at hfpg
  cases hfpg

theorem versionedFiles_rejection_witness :
    Generator.process sampleR sampleG2r samplePd sampleGen 0 versionedConfig =
      .error (versionedFilesMessage "app") := by
  obtain ⟨g, hg, hv, he, -, -⟩ :=
    versionedFiles_rejection sampleR sampleG2r samplePd sampleGen 0 versionedConfig
      ⟨versionedGroup, by simp [versionedConfig], rfl⟩
  have hgv : g = versionedGroup := by
    simpa [versionedConfig] using hg
  rw [hgv] at he
  exact he

/-- C8 counterexample: the claim says the base is stripped of a whole
leading `./` (so base `./foo/` would contribute `foo/`), but the code
strips only the leading dot, so with glob compiler `fun s _ => s`,
url `"x"` and base `"./foo/"` the compiler receives `"/foo/x"`, not
the `"foo/x"` the claim predicts. -/
theorem urlToRegex_strip_counterexample :
    urlToRegex (fun s _ => s) "x" "./foo/" false = "/foo/x" ∧
    (fun (s : String) (_ : Bool) => s) (joinUrls (stripDotSlashLead "./foo/") "x") false
      = "foo/x" ∧
    urlToRegex (fun s _ => s) "x" "./foo/" false ≠
      (fun (s : String) (_ : Bool) => s) (joinUrls (stripDotSlashLead "./foo/") "x") false :=
  ⟨rfl, rfl, by decide⟩

/-- C8 amended: for a url that does not start with `/` and contains no
`://`, `urlToRegex` joins it with the base after stripping only the
leading dot of a `./` prefix (keeping the slash, so a base `./foo/`
contributes `/foo/`), and passes the joined result to the glob
compiler; a url starting with `/` or containing `://` is passed
unmodified. -/
theorem urlToRegex_relative_normalization (g2r : String → Bool → String)
    (url base : String) (litQM : Bool) :
    (strStartsWith url "/" = false → strContains url "://" = false →
      urlToRegex g2r url base litQM = g2r (joinUrls (stripLeadingDot base) url) litQM) ∧
    (strStartsWith base "./" = true → stripLeadingDot base = strDrop base 1) ∧
    stripLeadingDot "./foo/" = "/foo/" ∧
    (strStartsWith url "/" = true ∨ strContains url "://" = true →
      urlToRegex g2r url base litQM = g2r url litQM) := by
  refine ⟨?_, ?_, by decide, ?_⟩
  · intro h1 h2
    simp [urlToRegex, urlToRegexInput, h1, h2]
  · intro h
    simp [stripLeadingDot, h]
  · rintro (h | h) <;> simp [urlToRegex, urlToRegexInput, h]

theorem urlToRegex_relative_normalization_witness :
    strStartsWith "x" "/" = false ∧ strContains "x" "://" = false ∧
      urlToRegex sampleG2r "x" "./foo/" false =
        sampleG2r (joinUrls (stripLeadingDot "./foo/") "x") false :=
  ⟨by decide, by decide,
    (urlToRegex_relative_normalization sampleG2r "x" "./foo/" false).1 (by decide) (by decide)⟩

theorem buildHashTable_keys_nodup (fs : Fs) (base : String) (files : List String) :
    ((buildHashTable fs base files).map Prod.fst).Nodup := by
  unfold buildHashTable
  exact foldl_insertHash_keys_nodup (fun f => joinUrls base f) (fun f => fs.hash f)
    files [] (by simp)

/-- C4: for every configuration and file snapshot, the keys of the
`hashTable` of the manifest returned by `process` are unique and in
strictly ascending lexicographic order. -/
theorem hashTable_keys_sorted (r : String → String → Bool)
    (g2r : String → Bool → String) (pd : String → Nat) (gen : Generator) (now : Nat)
    (config : Config) (m : Manifest)
    (hok : Generator.process r g2r pd gen now config = .ok m) :
    (m.hashTable.map Prod.fst).Nodup ∧
      (m.hashTable.map Prod.fst).Sorted (· < ·) := by
  rw [process_ok_iff] at hok
  obtain ⟨out, table, hok, hm⟩ := hok
  rw [processAssetGroups_ok_iff] at hok
  obtain ⟨fpg, hfpg, -, htable⟩ := hok
  have hkeys : m.hashTable.map Prod.fst = sortStrings (table.map Prod.fst) := by
    rw [hm]
    exact withOrderedKeys_keys table
  have hnd : (table.map Prod.fst).Nodup := by
    rw [htable]
    exact buildHashTable_keys_nodup gen.fs gen.baseHref (allMatchedFilesOf fpg)
  have hnd' : (sortStrings (table.map Prod.fst)).Nodup := sortStrings_nodup hnd
  rw [hkeys]
  exact ⟨hnd', (sortStrings_sorted _).lt_of_le hnd'⟩

theorem hashTable_keys_sorted_witness :
    (sampleManifest.hashTable.map Prod.fst).Nodup ∧
      (sampleManifest.hashTable.map Prod.fst).Sorted (· < ·) :=
  hashTable_keys_sorted sampleR sampleG2r samplePd sampleGen 0 sampleConfig sampleManifest
    (by decide)

/-- C5: determinism — for a fixed configuration and a fixed file
snapshot (the same file paths, in any enumeration order, with the same
path-to-hash function), two invocations of `process` fail identically
or produce identical manifests in every field except `timestamp`
(which is exactly the supplied clock value). -/
theorem process_deterministic (r : String → String → Bool) (g2r : String → Bool → String)
    (pd : String → Nat) (l1 l2 : List String) (hashFn : String → String) (base : String)
    (hperm : List.Perm l1 l2) (now1 now2 : Nat) (config : Config) :
    (∀ e, Generator.process r g2r pd ⟨⟨l1, hashFn⟩, base⟩ now1 config = .error e ↔
        Generator.process r g2r pd ⟨⟨l2, hashFn⟩, base⟩ now2 config = .error e) ∧
    (∀ m1 m2, Generator.process r g2r pd ⟨⟨l1, hashFn⟩, base⟩ now1 config = .ok m1 →
        Generator.process r g2r pd ⟨⟨l2, hashFn⟩, base⟩ now2 config = .ok m2 →
        eqExceptTimestamp m1 m2 ∧ m1.timestamp = now1 ∧ m2.timestamp = now2) := by
  have hcf : computeFilesPerGroup r l1 (config.assetGroups.getD []) [] =
      computeFilesPerGroup r l2 (config.assetGroups.getD []) [] :=
    cfpg_perm hperm _ _
  constructor
  · intro e
    rw [process_error_iff, process_error_iff]
    show computeFilesPerGroup r l1 (config.assetGroups.getD []) [] = _ ↔
      computeFilesPerGroup r l2 (config.assetGroups.getD []) [] = _
    rw [hcf]
  · intro m1 m2 h1 h2
    rw [process_ok_iff] at h1 h2
    obtain ⟨out1, table1, hok1, hm1⟩ := h1
    obtain ⟨out2, table2, hok2, hm2⟩ := h2
    rw [processAssetGroups_ok_iff] at hok1 hok2
    obtain ⟨fpg1, hf1, ho1, ht1⟩ := hok1
    obtain ⟨fpg2, hf2, ho2, ht2⟩ := hok2
    have hfpg : fpg1 = fpg2 := by
      have h12 : (Except.ok fpg1 : Except String (List (AssetGroupConfig × List String)))
          = Except.ok fpg2 :=
        hf1.symm.trans (hcf.trans hf2)
      injection h12
    subst hfpg
    have htable : table1 = table2 := by
      rw [ht1, ht2]
      rfl
    refine ⟨?_, by rw [hm1], by rw [hm2]⟩
    rw [hm1, hm2]
    exact ⟨rfl, rfl, rfl, by rw [ho1, ho2], rfl, by rw [htable], rfl, rfl⟩

theorem process_deterministic_witness :
    List.Perm ["/vendor.js", "/main.js"] ["/main.js", "/vendor.js"] ∧
      eqExceptTimestamp sampleManifest5 sampleManifest :=
  ⟨by decide,
    ((process_deterministic sampleR sampleG2r samplePd ["/vendor.js", "/main.js"]
        ["/main.js", "/vendor.js"] (fun _ => "h1") "/" (by decide) 5 0 sampleConfig).2
      sampleManifest5 sampleManifest (by decide) (by decide)).1⟩

/-- C2: hash-table completeness — when every snapshot path is absolute
(starts with `/`, as §3 defines the File Snapshot) and the snapshot
lists each file once, the manifest hash table has pairwise-distinct
keys, its keys are exactly (a permutation of) the union of the
emitted asset groups' `urls`, and the entry for each matched file `f`
is `(joinUrls baseHref f, hash f)`. -/
theorem hashTable_complete (r : String → String → Bool) (g2r : String → Bool → String)
    (pd : String → Nat) (gen : Generator) (now : Nat) (config : Config) (m : Manifest)
    (hok : Generator.process r g2r pd gen now config = .ok m)
    (habs : ∀ f ∈ gen.fs.list, strStartsWith f "/" = true)
    (hnd : gen.fs.list.Nodup) :
    (m.hashTable.map Prod.fst).Nodup ∧
    List.Perm (m.hashTable.map Prod.fst) ((m.assetGroups.map AssetGroup.urls).flatten) ∧
    ∀ f ∈ gen.fs.list,
      joinUrls gen.baseHref f ∈ (m.assetGroups.map AssetGroup.urls).flatten →
      (joinUrls gen.baseHref f, gen.fs.hash f) ∈ m.hashTable := by
  rw [process_ok_iff] at hok
  obtain ⟨out, table, hok, hm⟩ := hok
  rw [processAssetGroups_ok_iff] at hok
  obtain ⟨fpg, hfpg, hout, htable⟩ := hok
  have hmht : m.hashTable = withOrderedKeys table := by rw [hm]
  have hmag : m.assetGroups = fpg.map (emitAssetGroup g2r gen.baseHref) := by
    rw [hm]; exact hout
  have hflatsub : ∀ f ∈ (fpg.map Prod.snd).flatten, f ∈ gen.fs.list := by
    intro f hf
    rw [List.mem_flatten] at hf
    obtain ⟨l, hl, hfl⟩ := hf
    rw [List.mem_map] at hl
    obtain ⟨p, hp, hpl⟩ := hl
    exact (cfpg_mem hfpg hp (hpl ▸ hfl)).1
  have hAMperm : List.Perm (allMatchedFilesOf fpg) (fpg.map Prod.snd).flatten :=
    sortStrings_perm _
  have hAM : ∀ f ∈ allMatchedFilesOf fpg, f ∈ gen.fs.list := fun f hf =>
    hflatsub f (hAMperm.mem_iff.mp hf)
  have hinj : ∀ f1 ∈ gen.fs.list, ∀ f2 ∈ gen.fs.list,
      joinUrls gen.baseHref f1 = joinUrls gen.baseHref f2 → f1 = f2 := by
    intro f1 h1 f2 h2 he
    exact joinUrls_inj (habs f1 h1) (habs f2 h2) he
  have hflatnd : ((fpg.map Prod.snd).flatten).Nodup := by
    rw [List.nodup_flatten]
    constructor
    · intro l hl
      rw [List.mem_map] at hl
      obtain ⟨p, hp, hpl⟩ := hl
      exact hpl ▸ cfpg_nodup hnd hfpg hp
    · rw [List.pairwise_map]
      exact (cfpg_pairwise hfpg).imp (fun h a ha hb => h a ha hb)
  have hAMnd : (allMatchedFilesOf fpg).Nodup := hAMperm.nodup_iff.mpr hflatnd
  have hkeynd : ((allMatchedFilesOf fpg).map (fun f => joinUrls gen.baseHref f)).Nodup :=
    hAMnd.map_on (fun x hx y hy he => hinj x (hAM x hx) y (hAM y hy) he)
  have htable_eq : table = (allMatchedFilesOf fpg).map
      (fun f => (joinUrls gen.baseHref f, gen.fs.hash f)) := by
    rw [htable]
    unfold buildHashTable
    have h := foldl_insertHash_eq (fun f => joinUrls gen.baseHref f)
      (fun f => gen.fs.hash f) (allMatchedFilesOf fpg) [] (by simpa using hkeynd)
    simpa using h
  have hkeys_table : table.map Prod.fst =
      (allMatchedFilesOf fpg).map (fun f => joinUrls gen.baseHref f) := by
    rw [htable_eq, List.map_map]
    rfl
  have hurls : (m.assetGroups.map AssetGroup.urls).flatten =
      ((fpg.map Prod.snd).flatten).map (fun f => joinUrls gen.baseHref f) := by
    rw [hmag, List.map_map, List.map_flatten, List.map_map]
    rfl
  have hkeys_m : m.hashTable.map Prod.fst = sortStrings (table.map Prod.fst) := by
    rw [hmht]
    exact withOrderedKeys_keys table
  refine ⟨?_, ?_, ?_⟩
  · rw [hkeys_m]
    exact sortStrings_nodup (hkeys_table ▸ hkeynd)
  · rw [hkeys_m, hurls, hkeys_table]
    exact (sortStrings_perm _).trans (hAMperm.map _)
  · intro f hf hmem
    rw [hurls] at hmem
    rw [List.mem_map] at hmem
    obtain ⟨f', hf', he⟩ := hmem
    have hfe : f' = f := hinj f' (hflatsub f' hf') f hf he
    subst hfe
    have hfAM : f' ∈ allMatchedFilesOf fpg := hAMperm.mem_iff.mpr hf'
    have hmemtab : (joinUrls gen.baseHref f', gen.fs.hash f') ∈ table := by
      rw [htable_eq]
      exact List.mem_map_of_mem _ hfAM
    have hndk : (table.map Prod.fst).Nodup := hkeys_table ▸ hkeynd
    have hval : getValue table (joinUrls gen.baseHref f') = gen.fs.hash f' :=
      getValue_of_mem hndk hmemtab
    have hkmem : joinUrls gen.baseHref f' ∈ table.map Prod.fst := by
      rw [hkeys_table]
      exact List.mem_map_of_mem _ hfAM
    rw [hmht]
    have := mem_withOrderedKeys hkmem
    rwa [hval] at this

theorem hashTable_complete_witness :
    (sampleManifest.hashTable.map Prod.fst).Nodup ∧
      List.Perm (sampleManifest.hashTable.map Prod.fst)
        ((sampleManifest.assetGroups.map AssetGroup.urls).flatten) ∧
      (joinUrls sampleGen.baseHref "/main.js", sampleGen.fs.hash "/main.js") ∈
        sampleManifest.hashTable := by
  obtain ⟨h1, h2, h3⟩ := hashTable_complete sampleR sampleG2r samplePd sampleGen 0
    sampleConfig sampleManifest (by decide) (by decide) (by decide)
  exact ⟨h1, h2, h3 "/main.js" (by decide) (by decide)⟩

/-- C1 amended: for a snapshot of absolute paths, if file `f` of the
snapshot is matched by the file globs of groups `G1` (at position `i`)
and `G2` (at position `j > i`), and no group declared before `G1`
matches `f`, then `joinUrls baseHref f` appears in `G1`'s emitted
`urls` and not in `G2`'s; the emitted per-group `urls` lists are
pairwise disjoint. -/
theorem dedup_first_match (r : String → String → Bool) (g2r : String → Bool → String)
    (gen : Generator) (config : Config) (out : List AssetGroup)
    (table : List (String × String))
    (hok : Generator.processAssetGroups r g2r gen config = .ok (out, table))
    (habs : ∀ f ∈ gen.fs.list, strStartsWith f "/" = true)
    (f : String) (hf : f ∈ gen.fs.list)
    (i j : Nat) (hij : i < j) (G1 G2 : AssetGroupConfig)
    (hG1 : (config.assetGroups.getD [])[i]? = some G1)
    (hG2 : (config.assetGroups.getD [])[j]? = some G2)
    (hm1 : globListToMatcher r (G1.files.getD []) f = true)
    (_hm2 : globListToMatcher r (G2.files.getD []) f = true)
    (hfirst : ∀ k, k < i → ∀ G, (config.assetGroups.getD [])[k]? = some G →
      globListToMatcher r (G.files.getD []) f = false) :
    (∃ og1, out[i]? = some og1 ∧ joinUrls gen.baseHref f ∈ og1.urls) ∧
    (∃ og2, out[j]? = some og2 ∧ joinUrls gen.baseHref f ∉ og2.urls) ∧
    out.Pairwise (fun a b => ∀ u ∈ a.urls, u ∉ b.urls) := by
  rw [processAssetGroups_ok_iff] at hok
  obtain ⟨fpg, hfpg, hout, -⟩ := hok
  obtain ⟨p, hpi, hp1, hpf⟩ :=
    cfpg_first hfpg hf (List.not_mem_nil f) hG1 hm1 hfirst
  have hqj : (fpg.map Prod.fst)[j]? = some G2 := by
    rw [cfpg_fst hfpg]; exact hG2
  rw [List.getElem?_map] at hqj
  cases hq : fpg[j]? with
  | none => rw [hq] at hqj; cases hqj
  | some q =>
    rw [hq] at hqj
    injection hqj with hq1
    obtain ⟨hilen, hpe⟩ := List.getElem?_eq_some_iff.mp hpi
    obtain ⟨hjlen, hqe⟩ := List.getElem?_eq_some_iff.mp hq
    have hdisj := List.pairwise_iff_getElem.mp (cfpg_pairwise hfpg) i j hilen hjlen hij
    rw [hpe, hqe] at hdisj
    have hfq : f ∉ q.2 := hdisj f hpf
    refine ⟨⟨emitAssetGroup g2r gen.baseHref p, ?_, ?_⟩,
      ⟨emitAssetGroup g2r gen.baseHref q, ?_, ?_⟩, ?_⟩
    · rw [hout, List.getElem?_map, hpi]; rfl
    · exact List.mem_map_of_mem _ hpf
    · rw [hout, List.getElem?_map, hq]; rfl
    · intro hmem
      simp only [emitAssetGroup, List.mem_map] at hmem
      obtain ⟨f2, hf2, he2⟩ := hmem
      have h2l := (cfpg_mem hfpg (List.getElem?_mem hq) hf2).1
      have : f2 = f := joinUrls_inj (habs f2 h2l) (habs f hf) he2
      exact hfq (this ▸ hf2)
    · rw [hout, List.pairwise_map]
      refine (cfpg_pairwise hfpg).imp_of_mem ?_
      intro p' q' hp' hq' hrel u hu hv
      simp only [emitAssetGroup, List.mem_map] at hu hv
      obtain ⟨f1, hf1, he1⟩ := hu
      obtain ⟨f2, hf2, he2⟩ := hv
      have h1l := (cfpg_mem hfpg hp' hf1).1
      have h2l := (cfpg_mem hfpg hq' hf2).1
      have hfe : f1 = f2 :=
        joinUrls_inj (habs f1 h1l) (habs f2 h2l) (he1.trans he2.symm)
      exact hrel f1 hf1 (hfe ▸ hf2)

/-- C1 counterexample: with three groups `a`, `b`, `c` (in that order),
all of whose globs match the single snapshot file `/f`, the claim
instantiated at `G1 := b`, `G2 := c` (b declared before c, both
matching `/f`) predicts `/f` in b's `urls`; but group `a` claimed the
file first, so b's emitted `urls` list is empty. -/
theorem dedup_first_occurrence_counterexample :
    Generator.processAssetGroups sampleR sampleG2r trioGen trioConfig =
      .ok (trioOut, trioTable) ∧
    "/f" ∈ trioGen.fs.list ∧
    (trioConfig.assetGroups.getD [])[1]? = some trioGroupB ∧
    (trioConfig.assetGroups.getD [])[2]? = some trioGroupC ∧
    globListToMatcher sampleR (trioGroupB.files.getD []) "/f" = true ∧
    globListToMatcher sampleR (trioGroupC.files.getD []) "/f" = true ∧
    trioOut[1]? = some trioOutB ∧
    joinUrls trioGen.baseHref "/f" ∉ trioOutB.urls := by
  decide

theorem dedup_first_match_witness :
    joinUrls trioGen.baseHref "/f" ∈ trioOutA.urls ∧
      joinUrls trioGen.baseHref "/f" ∉ trioOutB.urls := by
  obtain ⟨⟨og1, hog1, h1⟩, ⟨og2, hog2, h2⟩, -⟩ :=
    dedup_first_match sampleR sampleG2r trioGen trioConfig trioOut trioTable
      (by decide) (by decide) "/f" (by decide) 0 1 (by decide) trioGroupA trioGroupB
      (by decide) (by decide) (by decide) (by decide)
      (fun k hk G hG => absurd hk (Nat.not_lt_zero k))
  have e1 : og1 = trioOutA := by
    have h := hog1.symm.trans (show trioOut[0]? = some trioOutA from rfl)
    injection h
  have e2 : og2 = trioOutB := by
    have h := hog2.symm.trans (show trioOut[1]? = some trioOutB from rfl)
    injection h
  exact ⟨e1 ▸ h1, e2 ▸ h2⟩
